import Mathlib

/-!
Verification development for the epoch-versioned state persistence layer:
epoch generator, keyspace encoder, managed materialized-view state,
managed aggregation value state, and the pinned-snapshot registry.

Machine integers are modelled as `Nat` with explicit wrap-around
(`% 2 ^ 64`) where overflow matters; byte strings are `List Nat`
(each element a byte value); fallible code returns `Except`/`Option`,
with `Option` `none` standing for a process-aborting panic.
-/

set_option autoImplicit false

namespace RW

/-! ## Byte-string utilities -/

/-- Big-endian byte encoding of a natural number in `w` bytes
(the semantics of Rust's `to_be_bytes` after truncation to the width). -/
def beBytes : Nat → Nat → List Nat
  | 0, _ => []
  | w + 1, n => beBytes w (n / 256) ++ [n % 256]

/-- Decode a big-endian byte string back to a natural number. -/
def decodeBytes (l : List Nat) : Nat :=
  l.foldl (fun a b => a * 256 + b) 0

/-- Little-endian decimal digits of a natural number. -/
def natDigitsLE (n : Nat) : List Nat :=
  if n < 10 then [n] else n % 10 :: natDigitsLE (n / 10)
termination_by n
decreasing_by exact Nat.div_lt_self (by omega) (by omega)

/-- Value of a little-endian digit list. -/
def fromDigitsLE : List Nat → Nat
  | [] => 0
  | d :: ds => d + 10 * fromDigitsLE ds

/-! ## Epoch generator (`meta/src/manager/epoch.rs`)

An epoch is a 64-bit value: upper 48 bits = physical milliseconds, lower
`EPOCH_PHYSICAL_SHIFT_BITS = 16` bits = logical sequence.  `Epoch::next`
reads the physical wall clock; the clock reading is modelled as an oracle
argument `physical_now` supplied at each step. -/

def EPOCH_PHYSICAL_SHIFT_BITS : Nat := 16

structure Epoch where
  val : Nat
deriving DecidableEq

/-- `Epoch::physical_time`: `self.0 >> EPOCH_PHYSICAL_SHIFT_BITS`. -/
def Epoch.physical_time (e : Epoch) : Nat :=
  e.val >>> EPOCH_PHYSICAL_SHIFT_BITS

/-- `Epoch::next`: if the observed physical time equals the stored physical
component, increment by one; otherwise restart at `physical_now << 16`.
Arithmetic wraps at 2^64 as Rust `u64` release arithmetic does. -/
def Epoch.next (e : Epoch) (physical_now : Nat) : Epoch :=
  if physical_now = e.physical_time then
    ⟨(e.val + 1) % 2 ^ 64⟩
  else
    ⟨(physical_now <<< EPOCH_PHYSICAL_SHIFT_BITS) % 2 ^ 64⟩

/-- `MemEpochGenerator`: the mutex-guarded current-epoch cell, modelled by
explicit state passing. -/
structure MemEpochGenerator where
  current_epoch : Epoch

/-- `MemEpochGenerator::generate`: step the stored epoch with `Epoch::next`
and return the new value together with the updated generator. -/
def MemEpochGenerator.generate (g : MemEpochGenerator) (physical_now : Nat) :
    Epoch × MemEpochGenerator :=
  let ce := g.current_epoch.next physical_now
  (ce, ⟨ce⟩)

/-- The list of epochs returned by a chain of `Epoch::next` steps starting
from `e`, with the clock oracle supplying one reading per call. -/
def epochRun (e : Epoch) : List Nat → List Epoch
  | [] => []
  | p :: ps => e.next p :: epochRun (e.next p) ps

/-- The outputs of a sequence of `generate()` calls on one generator. -/
def generateSeq (g : MemEpochGenerator) (oracle : List Nat) : List Epoch :=
  epochRun g.current_epoch oracle

/-- A single step is benign when the observed clock has not run behind the
stored epoch's physical component, the reading fits in 48 bits, and the
64-bit increment cannot wrap. -/
def stepOk (e : Epoch) (p : Nat) : Bool :=
  decide (e.physical_time ≤ p) && decide (p < 2 ^ 48) && decide (e.val + 1 < 2 ^ 64)

/-- All steps of a run are benign. -/
def runOk : Epoch → List Nat → Bool
  | _, [] => true
  | e, p :: ps => stepOk e p && runOk (e.next p) ps

/-- The pairwise guarantee along a run: outputs strictly increase, and a
repeat of the same millisecond reading yields exactly the previous value
plus one. -/
def pairRel (a b : Epoch × Nat) : Prop :=
  a.1.val < b.1.val ∧ (a.2 = b.2 → b.1.val = a.1.val + 1)

/-! ## Keyspace encoder (`storage/src/keyspace.rs`) -/

/-- A unit part of a keyspace prefix. -/
inductive Segment where
  | FixedLength : List Nat → Segment
  | VariantLength : List Nat → Segment
deriving DecidableEq

/-- `Segment::u16`: fixed-length big-endian bytes of a `u16` id. -/
def Segment.u16 (id : Nat) : Segment := .FixedLength (beBytes 2 id)

/-- `Segment::u32`: fixed-length big-endian bytes of a `u32` id. -/
def Segment.u32 (id : Nat) : Segment := .FixedLength (beBytes 4 id)

/-- `Segment::encode`: append this segment's encoding to the buffer.  A
`VariantLength` segment is prepended its length as a big-endian `u16`; a
length beyond `u16` range makes the `try_into().expect(..)` panic, which is
modelled as `none` (the process aborts — no error value reaches a caller). -/
def Segment.encode : Segment → List Nat → Option (List Nat)
  | .FixedLength fixed, buf => some (buf ++ fixed)
  | .VariantLength variant, buf =>
      if variant.length ≤ 65535 then
        some (buf ++ beBytes 2 variant.length ++ variant)
      else
        none

/-- The in-memory state store backing the tests of this layer, as a
duplicate-free association list from key bytes to value bytes. -/
abbrev MemoryStateStore := List (List Nat × List Nat)

/-- Point get: first entry with the given key. -/
def storeGet (st : MemoryStateStore) (k : List Nat) : Option (List Nat) :=
  (st.find? (fun e => decide (e.1 = k))).map (fun e => e.2)

/-- Insert-or-overwrite one key. -/
def storeInsert (st : MemoryStateStore) (k v : List Nat) : MemoryStateStore :=
  if st.any (fun e => decide (e.1 = k)) then
    st.map (fun e => if e.1 = k then (k, v) else e)
  else
    st ++ [(k, v)]

/-- Remove one key. -/
def storeErase (st : MemoryStateStore) (k : List Nat) : MemoryStateStore :=
  st.filter (fun e => decide (e.1 ≠ k))

/-- Apply a write batch: a `none` value deletes the key, a `some` value
upserts it.  The whole batch is applied atomically by the store. -/
def applyBatch (st : MemoryStateStore)
    (batch : List (List Nat × Option (List Nat))) : MemoryStateStore :=
  batch.foldl
    (fun st e =>
      match e.2 with
      | some v => storeInsert st e.1 v
      | none => storeErase st e.1)
    st

/-- `ingest_batch` against the store, with the store-level outcome supplied
by an environment oracle `err` (`none` = success, `some msg` = the store
fails with that message). -/
def ingest_batch (st : MemoryStateStore)
    (batch : List (List Nat × Option (List Nat))) (err : Option String) :
    Except String MemoryStateStore :=
  match err with
  | some msg => .error msg
  | none => .ok (applyBatch st batch)

/-- Prefix scan: all entries whose key starts with `pfx`, up to `limit`. -/
def storeScan (st : MemoryStateStore) (pfx : List Nat) (limit : Option Nat) :
    List (List Nat × List Nat) :=
  let hits := st.filter (fun e => pfx.isPrefixOf e.1)
  match limit with
  | some l => hits.take l
  | none => hits

/-- A keyspace: a state-store handle plus the accumulated prefix bytes
(field `pfx` models the source's `prefix` field). -/
structure Keyspace where
  store : MemoryStateStore
  pfx : List Nat

/-- `Keyspace::push`: append a segment's encoding to the prefix (`none`
when encoding the segment panics). -/
def Keyspace.push (k : Keyspace) (s : Segment) : Option Keyspace :=
  (s.encode k.pfx).map (fun p => { k with pfx := p })

/-- `Keyspace::executor_root`: empty prefix, then push `b"e"` and the
big-endian `u32` executor id. -/
def Keyspace.executor_root (store : MemoryStateStore) (id : Nat) :
    Option Keyspace :=
  (Keyspace.push ⟨store, []⟩ (.FixedLength [101])).bind
    (fun k => Keyspace.push k (Segment.u32 id))

/-- Modelled from the spec: the `Debug` rendering of a table id (the code's
`format!("{:?}", id)` over `risingwave_common::catalog::TableId`, which is
not under the source sample).  Modelled as the decimal digit string of the
id, which is all the spec relies on: an injective textual rendering. -/
def debugTableId (id : Nat) : List Nat :=
  (natDigitsLE id).reverse.map (fun d => d + 48)

/-- `Keyspace::table_root`: empty prefix, then push `b"t"` and the
variant-length debug rendering of the table id. -/
def Keyspace.table_root (store : MemoryStateStore) (id : Nat) :
    Option Keyspace :=
  (Keyspace.push ⟨store, []⟩ (.FixedLength [116])).bind
    (fun k => Keyspace.push k (.VariantLength (debugTableId id)))

/-- `Keyspace::prefixed_key`: the keyspace prefix followed by the key. -/
def Keyspace.prefixed_key (k : Keyspace) (key : List Nat) : List Nat :=
  k.pfx ++ key

/-- `Keyspace::scan`: delegate to the store's prefix scan. -/
def Keyspace.scan (k : Keyspace) (limit : Option Nat) :
    List (List Nat × List Nat) :=
  storeScan k.store k.pfx limit

/-- `Keyspace::scan_strip_prefix`: scan, then drop this keyspace's prefix
length from the front of every returned key. -/
def Keyspace.scan_strip_prefix (k : Keyspace) (limit : Option Nat) :
    List (List Nat × List Nat) :=
  ( Keyspace.scan k limit).map (fun e => (e.1.drop k.pfx.length, e.2))

/-! ## Managed materialized-view state
(`server/src/stream_op/mview/mview_state.rs`)

Rows are modelled as lists of `i32` scalar values (the claims only exercise
non-null integer cells).  The cell serializers `serialize_pk`,
`serialize_cell` and `serialize_cell_idx` live in a sibling module that is
not under the source sample and are modelled from the spec. -/

/-- A row: one scalar value per column. -/
abbrev Row := List Int

/-- A scalar is in `i32` range. -/
def inI32 (v : Int) : Prop := -(2 ^ 31) ≤ v ∧ v < 2 ^ 31

/-- Every scalar of a primary key is in `i32` range. -/
def wfPk (pk : Row) : Prop := ∀ v ∈ pk, inI32 v

instance (v : Int) : Decidable (inI32 v) := by unfold inI32; infer_instance

instance (pk : Row) : Decidable (wfPk pk) := by unfold wfPk; infer_instance

/-- Modelled from the spec: the order-preserving (memcomparable) byte
encoding of one `i32` scalar — offset to unsigned, big-endian. -/
def scalarBytes (v : Int) : List Nat :=
  beBytes 4 (v + 2 ^ 31).toNat

/-- Modelled from the spec: `serialize_pk` — the primary key encoded as the
concatenation of its scalars' order-preserving encodings. -/
def serialize_pk : Row → List Nat
  | [] => []
  | v :: vs => scalarBytes v ++ serialize_pk vs

/-- Modelled from the spec: `serialize_cell_idx` — the cell (column) index
as an order-preserving `i32` encoding. -/
def serialize_cell_idx (i : Nat) : List Nat :=
  scalarBytes (i : Int)

/-- Modelled from the spec: `serialize_cell` — one cell value's
order-preserving encoding. -/
def serialize_cell (v : Int) : List Nat :=
  scalarBytes v

/-- `ManagedMViewState`: prefix, schema (only its column count is relevant
to this layer), primary-key column indices and the memtable buffering one
pending mutation per primary key (`none` = pending delete).  The backing
store is passed explicitly at flush time. -/
structure ManagedMViewState where
  pfx : List Nat
  schemaLen : Nat
  pk_columns : List Nat
  memtable : List (Row × Option Row)

/-- `ManagedMViewState::new`: empty memtable, no I/O. -/
def ManagedMViewState.new (pfx : List Nat) (schemaLen : Nat)
    (pk_columns : List Nat) : ManagedMViewState :=
  ⟨pfx, schemaLen, pk_columns, []⟩

/-- Insert-or-overwrite in the memtable (`HashMap::insert` semantics). -/
def memInsert (m : List (Row × Option Row)) (k : Row) (v : Option Row) :
    List (Row × Option Row) :=
  if m.any (fun e => decide (e.1 = k)) then
    m.map (fun e => if e.1 = k then (k, v) else e)
  else
    m ++ [(k, v)]

/-- `ManagedMViewState::put`. -/
def ManagedMViewState.put (s : ManagedMViewState) (pk value : Row) :
    ManagedMViewState :=
  { s with memtable := memInsert s.memtable pk (some value) }

/-- `ManagedMViewState::delete`. -/
def ManagedMViewState.delete (s : ManagedMViewState) (pk : Row) :
    ManagedMViewState :=
  { s with memtable := memInsert s.memtable pk none }

/-- The cell key for one primary key and cell index:
`prefix ‖ serialize_pk(pk) ‖ serialize_cell_idx(idx)`. -/
def cellKey (s : ManagedMViewState) (pk : Row) (i : Nat) : List Nat :=
  s.pfx ++ serialize_pk pk ++ serialize_cell_idx i

/-- The batch entries one memtable row expands to: one cell per schema
column; a deleted row (`none`) yields deletion markers. -/
def rowCells (s : ManagedMViewState) (pk : Row) (cells : Option Row) :
    List (List Nat × Option (List Nat)) :=
  (List.range s.schemaLen).map
    (fun i => (cellKey s pk i, cells.map (fun row => serialize_cell (row.getD i 0))))

/-- The batch built from given memtable contents (helper for stating flush
lemmas; `buildBatch` below instantiates it with the state's memtable). -/
def batchOf (s : ManagedMViewState) (m : List (Row × Option Row)) :
    List (List Nat × Option (List Nat)) :=
  m.foldr (fun e acc => rowCells s e.1 e.2 ++ acc) []

/-- The whole write batch built by draining the memtable. -/
def buildBatch (s : ManagedMViewState) : List (List Nat × Option (List Nat)) :=
  batchOf s s.memtable

/-- Whether a batch entry's key is one of the cell keys of primary key `k`
(under the state's prefix and schema width). -/
def isCellKeyFor (s : ManagedMViewState) (k : Row)
    (e : List Nat × Option (List Nat)) : Bool :=
  (List.range s.schemaLen).any (fun i => decide (e.1 = cellKey s k i))

/-- `ManagedMViewState::flush`: drain the memtable into a cell batch, ingest
it atomically, and map a store failure into an `InternalError`.  The
memtable is drained whether or not the ingest succeeds. -/
def ManagedMViewState.flush (s : ManagedMViewState) (store : MemoryStateStore)
    (err : Option String) :
    ManagedMViewState × MemoryStateStore × Except String Unit :=
  let batch := buildBatch s
  let drained := { s with memtable := [] }
  match ingest_batch store batch err with
  | .ok st' => (drained, st', .ok ())
  | .error e => (drained, store, .error ("InternalError: " ++ e))

/-! ## Managed aggregation value state
(`server/src/stream_op/state_aggregation/value.rs`)

The boxed `StreamingAggStateImpl` trait object and datum serialization live
outside the source sample; they are modelled from the spec. -/

/-- A datum: a nullable scalar. -/
abbrev Datum := Option Int

/-- Stream chunk operation kinds. -/
inductive Op where
  | insert
  | delete
  | updateDelete
  | updateInsert
deriving DecidableEq

/-- Modelled from the spec: the closed tagged-variant accumulator behind
`Box<dyn StreamingAggStateImpl>`.  The `count` variant is modelled
concretely; `extended` stands for any other aggregate kind, abstracted by
the `Result` its `get_output` currently returns (the contract is
`get_output() -> Result<Value>`). -/
inductive StreamingAggState where
  | count : Int → StreamingAggState
  | extended : Except String Datum → StreamingAggState

/-- Modelled from the spec: `get_output` of the accumulator. -/
def StreamingAggState.get_output : StreamingAggState → Except String Datum
  | .count v => .ok (some v)
  | .extended r => r

/-- Sign of one operation for the count aggregate. -/
def opSign : Op → Int
  | .insert => 1
  | .updateInsert => 1
  | .delete => -1
  | .updateDelete => -1

/-- Modelled from the spec: the count delta of a batch — visible rows with a
non-null argument, inserts adding one and deletes removing one. -/
def countDelta (ops : List Op) (vis : Option (List Bool)) (col : List Datum) : Int :=
  (List.range ops.length).foldl
    (fun acc i =>
      if (match vis with | some v => v.getD i true | none => true)
          && (col.getD i none).isSome then
        acc + opSign (ops.getD i .insert)
      else acc)
    0

/-- Modelled from the spec: apply a batch of (operations, visibility,
column) to the accumulator. -/
def StreamingAggState.applyBatch (s : StreamingAggState) (ops : List Op)
    (vis : Option (List Bool)) (col : List Datum) :
    Except String StreamingAggState :=
  match s with
  | .count v => .ok (.count (v + countDelta ops vis col))
  | .extended r => .ok (.extended r)

/-- Modelled from the spec: `create_streaming_agg_state` rehydrating a count
accumulator from an optionally persisted datum. -/
def create_streaming_agg_state (data : Option Datum) : StreamingAggState :=
  match data with
  | some (some n) => .count n
  | some none => .count 0
  | none => .count 0

/-- Modelled from the spec: the order-preserving (memcomparable) serialized
form of a datum — a null flag byte, then the offset big-endian `i64`. -/
def serializeDatum : Datum → List Nat
  | none => [0]
  | some v => 1 :: beBytes 8 (v + 2 ^ 63).toNat

/-- Modelled from the spec: `serialize_datum_into`, which reports
serialization failures through a `Result` (the modelled encoding happens to
succeed on every datum). -/
def serialize_datum_into (d : Datum) : Except String (List Nat) :=
  .ok (serializeDatum d)

/-- Modelled from the spec: `deserialize_datum_from` over the same
encoding. -/
def deserializeDatum : List Nat → Except String Datum
  | [] => .error "MemComparableError"
  | flag :: rest =>
      if flag = 0 then
        if rest = [] then .ok none else .error "MemComparableError"
      else if flag = 1 then
        if rest.length = 8 then
          .ok (some ((decodeBytes rest : Int) - 2 ^ 63))
        else
          .error "MemComparableError"
      else
        .error "MemComparableError"

/-- `ManagedValueState`: the accumulator, the owning keyspace, and the dirty
flag. -/
structure ManagedValueState where
  state : StreamingAggState
  keyspace : Keyspace
  is_dirty : Bool

/-- `ManagedValueState::new`: read the persisted value for the keyspace,
fail on a datum that does not decode, and otherwise rehydrate the
accumulator.  A fresh state is never dirty. -/
def ManagedValueState.new (ks : Keyspace) : Except String ManagedValueState :=
  match storeGet ks.store ks.pfx with
  | some raw =>
      match deserializeDatum raw with
      | .ok d => .ok ⟨create_streaming_agg_state (some d), ks, false⟩
      | .error e => .error e
  | none => .ok ⟨create_streaming_agg_state none, ks, false⟩

/-- `ManagedValueState::apply_batch`: mark dirty, then apply to the
accumulator; the dirty mark sticks even if the accumulator errors. -/
def ManagedValueState.apply_batch (s : ManagedValueState) (ops : List Op)
    (vis : Option (List Bool)) (col : List Datum) :
    ManagedValueState × Except String Unit :=
  let s1 := { s with is_dirty := true }
  match StreamingAggState.applyBatch s1.state ops vis col with
  | .ok st' => ({ s1 with state := st' }, .ok ())
  | .error e => (s1, .error e)

/-- `ManagedValueState::flush`: get the output, serialize it, append one
`(key, Some(value))` entry to the caller's write batch, and clear the dirty
flag — in that order, so an error leaves batch and state untouched. -/
def ManagedValueState.flush (s : ManagedValueState)
    (write_batch : List (List Nat × Option (List Nat))) :
    Except String Unit × ManagedValueState × List (List Nat × Option (List Nat)) :=
  match StreamingAggState.get_output s.state with
  | .error e => (.error e, s, write_batch)
  | .ok v =>
      match serialize_datum_into v with
      | .error e => (.error e, s, write_batch)
      | .ok bytes =>
          (.ok (), { s with is_dirty := false },
            write_batch ++ [(s.keyspace.pfx, some bytes)])

/-! ## Pinned-snapshot registry
(`meta/src/hummock/model/pinned_snapshot.rs`)

The metadata `Transaction`, `Operation` and protobuf encodings live outside
the source sample; they are modelled from the spec as staged operation
lists and an opaque injective record encoding. -/

/-- A staged metadata-store operation. -/
inductive Operation where
  | put : List Nat → List Nat → Operation
  | delete : List Nat → Operation
deriving DecidableEq

/-- A metadata transaction: the list of staged operations. -/
structure Transaction where
  ops : List Operation
deriving DecidableEq

/-- The pinned-snapshot record: context id and the list of pinned epochs. -/
structure HummockContextPinnedSnapshot where
  context_id : Nat
  snapshot_id : List Nat
deriving DecidableEq

/-- `Iterator::position`: index of the first element equal to `e`. -/
def position : List Nat → Nat → Option Nat
  | [], _ => none
  | x :: xs, e => if x = e then some 0 else (position xs e).map (fun i => i + 1)

/-- `pin_snapshot`: push the epoch only when no entry equals it. -/
def pin_snapshot (s : HummockContextPinnedSnapshot) (epoch : Nat) :
    HummockContextPinnedSnapshot :=
  match position s.snapshot_id epoch with
  | none => { s with snapshot_id := s.snapshot_id ++ [epoch] }
  | some _ => s

/-- `unpin_snapshot`: remove the first entry equal to the epoch, if any. -/
def unpin_snapshot (s : HummockContextPinnedSnapshot) (epoch : Nat) :
    HummockContextPinnedSnapshot :=
  match position s.snapshot_id epoch with
  | some pos => { s with snapshot_id := s.snapshot_id.eraseIdx pos }
  | none => s

/-- Modelled from the spec: `ColumnFamilyUtils::prefix_key_with_cf` over the
protobuf-encoded `HummockContextRefId` key — the column-family tag bytes
followed by the context id rendered as bytes. -/
def storedKey (context_id : Nat) : List Nat :=
  (("cf/hummock_context_pinned_snapshot").data.map Char.toNat) ++ beBytes 8 context_id

/-- Modelled from the spec: the protobuf-style serialization of the whole
record. -/
def storedValue (s : HummockContextPinnedSnapshot) : List Nat :=
  beBytes 8 s.context_id ++ (s.snapshot_id.foldr (fun e acc => beBytes 8 e ++ acc) [])

/-- `Transactional::upsert`: stage a `Put` of the encoded record. -/
def upsertRecord (s : HummockContextPinnedSnapshot) (trx : Transaction) :
    Transaction :=
  ⟨trx.ops ++ [.put (storedKey s.context_id) (storedValue s)]⟩

/-- `Transactional::delete`: stage a `Delete` of the record's key. -/
def deleteRecord (s : HummockContextPinnedSnapshot) (trx : Transaction) :
    Transaction :=
  ⟨trx.ops ++ [.delete (storedKey s.context_id)]⟩

/-- `update`: delete the record when the pinned set is empty, upsert it
otherwise. -/
def update (s : HummockContextPinnedSnapshot) (trx : Transaction) :
    Transaction :=
  if s.snapshot_id.isEmpty then deleteRecord s trx else upsertRecord s trx

/-! # Theorems -/

/-! ## Byte-string lemmas -/

theorem beBytes_length (w n : Nat) : (beBytes w n).length = w := by
  induction w generalizing n with
  | zero => rfl
  | succ w ih => simp [beBytes, ih]

theorem decodeBytes_append (l : List Nat) (b : Nat) :
    decodeBytes (l ++ [b]) = decodeBytes l * 256 + b := by
  simp [decodeBytes, List.foldl_append]

theorem decodeBytes_beBytes (w n : Nat) :
    decodeBytes (beBytes w n) = n % 256 ^ w := by
  induction w generalizing n with
  | zero => simp [beBytes, decodeBytes, Nat.mod_one]
  | succ w ih =>
    rw [beBytes, decodeBytes_append, ih]
    calc n / 256 % 256 ^ w * 256 + n % 256
        = n % 256 + 256 * (n / 256 % 256 ^ w) := by ring
      _ = n % (256 * 256 ^ w) := (Nat.mod_mul).symm
      _ = n % 256 ^ (w + 1) := by ring_nf

theorem beBytes_inj {w n m : Nat} (hn : n < 256 ^ w) (hm : m < 256 ^ w)
    (h : beBytes w n = beBytes w m) : n = m := by
  have := congrArg decodeBytes h
  rwa [decodeBytes_beBytes, decodeBytes_beBytes,
    Nat.mod_eq_of_lt hn, Nat.mod_eq_of_lt hm] at this

theorem fromDigitsLE_natDigitsLE (n : Nat) :
    fromDigitsLE (natDigitsLE n) = n := by
  induction n using Nat.strong_induction_on with
  | _ n ih =>
    rw [natDigitsLE]
    split
    · simp [fromDigitsLE]
    · next h =>
      rw [fromDigitsLE, ih (n / 10) (Nat.div_lt_self (by omega) (by omega))]
      omega

theorem natDigitsLE_inj {n m : Nat} (h : natDigitsLE n = natDigitsLE m) :
    n = m := by
  have := congrArg fromDigitsLE h
  rwa [fromDigitsLE_natDigitsLE, fromDigitsLE_natDigitsLE] at this

theorem natDigitsLE_length_le (k : Nat) :
    ∀ n, n < 10 ^ k → (natDigitsLE n).length ≤ k + 1 := by
  induction k with
  | zero =>
    intro n hn
    interval_cases n
    simp [natDigitsLE]
  | succ k ih =>
    intro n hn
    rw [natDigitsLE]
    split
    · simp
    · next h =>
      have := ih (n / 10) (by omega)
      simpa using Nat.succ_le_succ this

theorem debugTableId_inj {n m : Nat} (h : debugTableId n = debugTableId m) :
    n = m := by
  unfold debugTableId at h
  have hmap : Function.Injective (fun d : Nat => d + 48) := by
    intro a b hab
    simp only [] at hab
    omega
  have h1 := List.map_injective_iff.mpr hmap h
  have h2 := List.reverse_injective h1
  exact natDigitsLE_inj h2

theorem debugTableId_length_le (n : Nat) (hn : n < 2 ^ 32) :
    (debugTableId n).length ≤ 11 := by
  unfold debugTableId
  rw [List.length_map, List.length_reverse]
  have : n < 10 ^ 10 := by omega
  exact natDigitsLE_length_le 10 n this

/-! ## Epoch lemmas and claim C1 -/

theorem physical_time_def (e : Epoch) : e.physical_time = e.val / 2 ^ 16 := by
  simp [Epoch.physical_time, EPOCH_PHYSICAL_SHIFT_BITS, Nat.shiftRight_eq_div_pow]

theorem next_val_eq (e : Epoch) (p : Nat) :
    (e.next p).val =
      if p = e.val / 2 ^ 16 then (e.val + 1) % 2 ^ 64 else p * 2 ^ 16 % 2 ^ 64 := by
  simp only [Epoch.next, physical_time_def, Nat.shiftLeft_eq, EPOCH_PHYSICAL_SHIFT_BITS]
  split <;> rfl

theorem next_val_gt {e : Epoch} {p : Nat} (h : stepOk e p = true) :
    e.val < (e.next p).val := by
  simp only [stepOk, Bool.and_eq_true, decide_eq_true_eq, physical_time_def] at h
  obtain ⟨⟨hle, hp⟩, hlt⟩ := h
  rw [next_val_eq]
  split <;> omega

theorem next_physical_ge {e : Epoch} {p : Nat} (h : stepOk e p = true) :
    p ≤ (e.next p).physical_time := by
  simp only [stepOk, Bool.and_eq_true, decide_eq_true_eq, physical_time_def] at h
  obtain ⟨⟨hle, hp⟩, hlt⟩ := h
  rw [physical_time_def, next_val_eq]
  split <;> omega

theorem next_same_ms {e : Epoch} {p : Nat} (h : stepOk e p = true)
    (hsame : p = e.physical_time) : (e.next p).val = e.val + 1 := by
  simp only [stepOk, Bool.and_eq_true, decide_eq_true_eq, physical_time_def] at h
  rw [physical_time_def] at hsame
  obtain ⟨⟨hle, hp⟩, hlt⟩ := h
  rw [next_val_eq, if_pos hsame]
  omega

theorem epochRun_chain_aux (ps : List Nat) :
    ∀ e p, stepOk e p = true → runOk (e.next p) ps = true →
      List.Chain' pairRel ((e.next p, p) :: (epochRun (e.next p) ps).zip ps) := by
  induction ps with
  | nil =>
    intro e p _ _
    simp [epochRun]
  | cons q qs ih =>
    intro e p hstep hrun
    simp only [runOk, Bool.and_eq_true] at hrun
    obtain ⟨hstep2, hrun2⟩ := hrun
    rw [epochRun]
    simp only [List.zip_cons_cons]
    refine List.Chain'.cons ?_ (ih (e.next p) q hstep2 hrun2)
    constructor
    · exact next_val_gt hstep2
    · intro hpq
      apply next_same_ms hstep2
      have h1 : p ≤ (e.next p).physical_time := next_physical_ge hstep
      have h2 : (e.next p).physical_time ≤ q := by
        simp only [stepOk, Bool.and_eq_true, decide_eq_true_eq] at hstep2
        exact hstep2.1.1
      rw [physical_time_def] at h1 h2 ⊢
      omega

/-- C1 counterexample: with an arbitrary physical-clock oracle the returned
epochs are not strictly increasing — starting from a stored epoch with
physical component 100, a clock reading of 100 and then a regressed reading
of 50 produce a second value smaller than the first. -/
theorem epoch_c1_counterexample :
    ¬ List.Chain' (fun a b : Epoch => a.val < b.val)
        (generateSeq ⟨⟨100 * 2 ^ 16⟩⟩ [100, 50]) := by
  have hseq : generateSeq ⟨⟨100 * 2 ^ 16⟩⟩ [100, 50] = [⟨6553601⟩, ⟨3276800⟩] := by
    decide
  rw [hseq]
  intro h
  exact absurd (List.chain'_cons.mp h).1 (by decide)

/-- C1 (amended): along any `generate()` run in which every call observes a
physical millisecond that is at least the stored epoch's physical component
(in particular, whenever the clock is non-decreasing and the 16-bit logical
counter does not wrap), stays below 2^48, and the 64-bit value cannot
overflow, consecutive returned epochs strictly increase, and a call that
observes the same physical millisecond as the previous call returns exactly
the previous value plus one. -/
theorem epoch_c1_monotonic (g : MemEpochGenerator) (oracle : List Nat)
    (h : runOk g.current_epoch oracle = true) :
    List.Chain' pairRel ((generateSeq g oracle).zip oracle) := by
  unfold generateSeq
  match oracle, h with
  | [], _ => simp [epochRun]
  | p :: ps, h =>
    simp only [runOk, Bool.and_eq_true] at h
    rw [epochRun]
    simp only [List.zip_cons_cons]
    exact epochRun_chain_aux ps g.current_epoch p h.1 h.2

theorem epoch_c1_monotonic_witness :
    runOk (⟨100 * 2 ^ 16⟩ : Epoch) [100, 100, 101] = true ∧
      List.Chain' pairRel
        ((generateSeq ⟨⟨100 * 2 ^ 16⟩⟩ [100, 100, 101]).zip [100, 100, 101]) :=
  ⟨by decide, epoch_c1_monotonic ⟨⟨100 * 2 ^ 16⟩⟩ [100, 100, 101] (by decide)⟩

/-! ## Keyspace lemmas and claims C5, C7, C8 -/

theorem executor_root_eq (st : MemoryStateStore) (id : Nat) :
    Keyspace.executor_root st id = some ⟨st, 101 :: beBytes 4 id⟩ := by
  simp [Keyspace.executor_root, Keyspace.push, Segment.encode, Segment.u32]

theorem table_root_eq (st : MemoryStateStore) (id : Nat) (hid : id < 2 ^ 32) :
    Keyspace.table_root st id =
      some ⟨st, 116 :: (beBytes 2 (debugTableId id).length ++ debugTableId id)⟩ := by
  have hlen : (debugTableId id).length ≤ 65535 := by
    have := debugTableId_length_le id hid
    omega
  simp [Keyspace.table_root, Keyspace.push, Segment.encode, hlen]

/-- C5: distinct executor ids give distinct executor-root prefixes, distinct
table ids give distinct table-root prefixes, and an executor root never
shares its prefix with a table root (the one-byte namespace tags differ). -/
theorem keyspace_c5 (st1 st2 : MemoryStateStore) (a b ta tb : Nat)
    (ha : a < 2 ^ 32) (hb : b < 2 ^ 32) (hta : ta < 2 ^ 32) (htb : tb < 2 ^ 32) :
    (a ≠ b →
      (Keyspace.executor_root st1 a).map Keyspace.pfx ≠
        (Keyspace.executor_root st2 b).map Keyspace.pfx)
    ∧ (ta ≠ tb →
      (Keyspace.table_root st1 ta).map Keyspace.pfx ≠
        (Keyspace.table_root st2 tb).map Keyspace.pfx)
    ∧ (Keyspace.executor_root st1 a).map Keyspace.pfx ≠
        (Keyspace.table_root st2 ta).map Keyspace.pfx := by
  have h232 : (2 : Nat) ^ 32 = 256 ^ 4 := by norm_num
  refine ⟨?_, ?_, ?_⟩
  · intro hne h
    rw [executor_root_eq st1 a, executor_root_eq st2 b] at h
    simp only [Option.map_some', Option.some_inj] at h
    have h2 : beBytes 4 a = beBytes 4 b := by
      injection h
    exact hne (beBytes_inj (h232 ▸ ha) (h232 ▸ hb) h2)
  · intro hne h
    rw [table_root_eq st1 ta hta, table_root_eq st2 tb htb] at h
    simp only [Option.map_some', Option.some_inj] at h
    have h2 : beBytes 2 (debugTableId ta).length ++ debugTableId ta =
        beBytes 2 (debugTableId tb).length ++ debugTableId tb := by
      injection h
    have h3 := List.append_inj h2 (by rw [beBytes_length, beBytes_length])
    exact hne (debugTableId_inj h3.2)
  · intro h
    rw [executor_root_eq st1 a, table_root_eq st2 ta hta] at h
    simp only [Option.map_some', Option.some_inj] at h
    exact absurd h (by simp)

theorem keyspace_c5_witness :
    ((Keyspace.executor_root [] 1).map Keyspace.pfx ≠
        (Keyspace.executor_root [] 2).map Keyspace.pfx)
    ∧ ((Keyspace.table_root [] 1).map Keyspace.pfx ≠
        (Keyspace.table_root [] 2).map Keyspace.pfx)
    ∧ (Keyspace.executor_root [] 1).map Keyspace.pfx ≠
        (Keyspace.table_root [] 1).map Keyspace.pfx :=
  ⟨(keyspace_c5 [] [] 1 2 1 2 (by decide) (by decide) (by decide) (by decide)).1
      (by decide),
   (keyspace_c5 [] [] 1 2 1 2 (by decide) (by decide) (by decide) (by decide)).2.1
      (by decide),
   (keyspace_c5 [] [] 1 2 1 2 (by decide) (by decide) (by decide) (by decide)).2.2⟩

theorem mem_scan_isPrefixOf {k : Keyspace} {limit : Option Nat}
    {e : List Nat × List Nat} (h : e ∈ Keyspace.scan k limit) :
    k.pfx.isPrefixOf e.1 = true := by
  have hf : e ∈ k.store.filter (fun x => k.pfx.isPrefixOf x.1) := by
    rcases limit with _ | l
    · exact h
    · exact List.mem_of_mem_take h
  exact (List.mem_filter.mp hf).2

/-- C7: `scan_strip_prefix(limit)` returns exactly the pairs of
`scan(limit)`, in the same order, with values unchanged and each key
replaced by the suffix after the keyspace prefix; re-prepending the prefix
recovers the scan result byte-for-byte. -/
theorem keyspace_c7 (k : Keyspace) (limit : Option Nat) :
    ( Keyspace.scan_strip_prefix k limit)
        = ( Keyspace.scan k limit).map (fun e => (e.1.drop k.pfx.length, e.2))
    ∧ ( Keyspace.scan_strip_prefix k limit).map (fun e => (k.pfx ++ e.1, e.2))
        = Keyspace.scan k limit := by
  refine ⟨rfl, ?_⟩
  unfold Keyspace.scan_strip_prefix
  rw [List.map_map]
  have hmem : ∀ e ∈ Keyspace.scan k limit,
      ((fun e : List Nat × List Nat => (k.pfx ++ e.1, e.2)) ∘
        fun e : List Nat × List Nat => (e.1.drop k.pfx.length, e.2)) e = id e := by
    intro e he
    obtain ⟨t, ht⟩ := List.isPrefixOf_iff_prefix.mp (mem_scan_isPrefixOf he)
    simp only [Function.comp, id]
    rw [← ht, List.drop_left, ht]
  rw [List.map_congr_left hmem, List.map_id]

theorem encode_variant_ok {v : List Nat} (buf : List Nat)
    (h : v.length ≤ 65535) :
    Segment.encode (.VariantLength v) buf
      = some (buf ++ beBytes 2 v.length ++ v) := by
  simp only [Segment.encode]
  rw [if_pos h]

theorem encode_variant_long {v : List Nat} (buf : List Nat)
    (h : 65535 < v.length) :
    Segment.encode (.VariantLength v) buf = none := by
  simp only [Segment.encode]
  rw [if_neg (by omega)]

/-- C8 counterexample: encoding a `VariantLength` segment of 65536 bytes
panics (the `try_into().expect(..)` aborts the process, modelled as
`none`); no `EncodingError` value is returned to a caller — the encode
function's type has no error channel at all. -/
theorem keyspace_c8_counterexample :
    Segment.encode (.VariantLength (List.replicate 65536 0)) [] = none :=
  encode_variant_long []
    (by rw [List.length_replicate]; decide)

/-- C8 (amended): a `VariantLength` segment of at most 65535 bytes encodes
as the big-endian 16-bit length prefix followed by the segment bytes; a
longer segment makes encoding panic (process abort, modelled `none`) rather
than surface an `EncodingError` to the caller. -/
theorem keyspace_c8_encode (v buf : List Nat) :
    (v.length ≤ 65535 →
      Segment.encode (.VariantLength v) buf = some (buf ++ beBytes 2 v.length ++ v))
    ∧ (65535 < v.length → Segment.encode (.VariantLength v) buf = none) :=
  ⟨encode_variant_ok buf, encode_variant_long buf⟩

theorem keyspace_c8_encode_witness :
    Segment.encode (.VariantLength [7]) [9] = some ([9] ++ beBytes 2 1 ++ [7])
    ∧ Segment.encode (.VariantLength (List.replicate 65536 0)) [] = none :=
  ⟨(keyspace_c8_encode [7] [9]).1 (by decide),
   (keyspace_c8_encode (List.replicate 65536 0) []).2
      (by rw [List.length_replicate]; decide)⟩

/-! ## Pinned-snapshot registry lemmas and claim C4 -/

theorem position_eq_none_iff (l : List Nat) (e : Nat) :
    position l e = none ↔ e ∉ l := by
  induction l with
  | nil => simp [position]
  | cons x xs ih =>
    by_cases hx : x = e
    · subst hx
      simp [position]
    · simp only [position, if_neg hx, Option.map_eq_none', ih, List.mem_cons]
      constructor
      · intro hne
        rintro (h | h)
        · exact hx h.symm
        · exact hne h
      · intro hne h
        exact hne (Or.inr h)

/-- C4: pinning the same epoch twice leaves exactly one matching entry in
the pinned set; unpinning an absent epoch is a no-op; and `update` after
unpinning the last remaining entry stages a `Delete` operation on the
transaction (not a `Put` of an empty record). -/
theorem pinned_c4 (s : HummockContextPinnedSnapshot) (e : Nat)
    (trx : Transaction) (hcount : s.snapshot_id.count e ≤ 1) :
    ((pin_snapshot (pin_snapshot s e) e).snapshot_id.count e = 1)
    ∧ (e ∉ s.snapshot_id → unpin_snapshot s e = s)
    ∧ (s.snapshot_id = [e] →
        (update (unpin_snapshot s e) trx).ops
          = trx.ops ++ [Operation.delete (storedKey s.context_id)]) := by
  refine ⟨?_, ?_, ?_⟩
  · cases hpos : position s.snapshot_id e with
    | none =>
      have hnm : e ∉ s.snapshot_id := (position_eq_none_iff _ _).mp hpos
      have h1 : pin_snapshot s e = { s with snapshot_id := s.snapshot_id ++ [e] } := by
        unfold pin_snapshot
        rw [hpos]
      have hmem2 : e ∈ s.snapshot_id ++ [e] := by simp
      have hpos2 : position (s.snapshot_id ++ [e]) e ≠ none := by
        rw [Ne, position_eq_none_iff]
        simp
      have h2 : pin_snapshot { s with snapshot_id := s.snapshot_id ++ [e] } e
          = { s with snapshot_id := s.snapshot_id ++ [e] } := by
        unfold pin_snapshot
        cases hp : position (s.snapshot_id ++ [e]) e with
        | none => exact absurd hp hpos2
        | some _ => rfl
      rw [h1, h2]
      have hzero : s.snapshot_id.count e = 0 := List.count_eq_zero.mpr hnm
      simp [List.count_append, hzero]
    | some i =>
      have hmem : e ∈ s.snapshot_id := by
        by_contra hnm
        rw [← position_eq_none_iff] at hnm
        rw [hpos] at hnm
        exact Option.noConfusion hnm
      have h1 : pin_snapshot s e = s := by
        unfold pin_snapshot
        rw [hpos]
      rw [h1, h1]
      have := List.count_pos_iff.mpr hmem
      omega
  · intro hnm
    have hpos : position s.snapshot_id e = none := (position_eq_none_iff _ _).mpr hnm
    unfold unpin_snapshot
    rw [hpos]
  · intro h
    have hun : unpin_snapshot s e = { s with snapshot_id := [] } := by
      unfold unpin_snapshot
      rw [h]
      simp [position]
    rw [hun]
    simp [update, deleteRecord]

theorem pinned_c4_witness :
    ((pin_snapshot (pin_snapshot ⟨1, [10]⟩ 10) 10).snapshot_id.count 10 = 1)
    ∧ (unpin_snapshot (⟨1, [7]⟩ : HummockContextPinnedSnapshot) 10 = ⟨1, [7]⟩)
    ∧ ((update (unpin_snapshot ⟨1, [10]⟩ 10) ⟨[]⟩).ops
        = [] ++ [Operation.delete (storedKey 1)]) :=
  ⟨(pinned_c4 ⟨1, [10]⟩ 10 ⟨[]⟩ (by decide)).1,
   (pinned_c4 ⟨1, [7]⟩ 10 ⟨[]⟩ (by decide)).2.1 (by decide),
   (pinned_c4 ⟨1, [10]⟩ 10 ⟨[]⟩ (by decide)).2.2 (by decide)⟩

/-! ## Materialized-view lemmas and claims C2, C6, C9 -/

theorem scalarBytes_length (v : Int) : (scalarBytes v).length = 4 :=
  beBytes_length 4 _

theorem scalarBytes_inj {a b : Int} (ha : inI32 a) (hb : inI32 b)
    (h : scalarBytes a = scalarBytes b) : a = b := by
  obtain ⟨ha1, ha2⟩ := ha
  obtain ⟨hb1, hb2⟩ := hb
  have h4 : (256 : Nat) ^ 4 = 4294967296 := by norm_num
  have hna : (a + 2 ^ 31).toNat < 256 ^ 4 := by omega
  have hnb : (b + 2 ^ 31).toNat < 256 ^ 4 := by omega
  have := beBytes_inj hna hnb h
  omega

theorem serialize_pk_length (p : Row) : (serialize_pk p).length = 4 * p.length := by
  induction p with
  | nil => rfl
  | cons v vs ih =>
    simp [serialize_pk, scalarBytes_length, ih, List.length_cons]
    ring

theorem serialize_pk_inj : ∀ {p q : Row}, wfPk p → wfPk q →
    p.length = q.length → serialize_pk p = serialize_pk q → p = q := by
  intro p
  induction p with
  | nil =>
    intro q _ _ hlen _
    cases q with
    | nil => rfl
    | cons _ _ => simp at hlen
  | cons v vs ih =>
    intro q hp hq hlen h
    cases q with
    | nil => simp at hlen
    | cons w ws =>
      simp only [serialize_pk] at h
      have hblocks := List.append_inj h
        (by rw [scalarBytes_length, scalarBytes_length])
      have hv : v = w :=
        scalarBytes_inj (hp v (by simp)) (hq w (by simp)) hblocks.1
      have hvs : vs = ws :=
        ih (fun x hx => hp x (by simp [hx])) (fun x hx => hq x (by simp [hx]))
          (by simpa using hlen) hblocks.2
      rw [hv, hvs]

theorem cellKey_inj {s : ManagedMViewState} {p q : Row} {i j : Nat}
    (hp : wfPk p) (hq : wfPk q) (hi : i < 2 ^ 31) (hj : j < 2 ^ 31)
    (h : cellKey s p i = cellKey s q j) : p = q ∧ i = j := by
  unfold cellKey at h
  rw [List.append_assoc, List.append_assoc] at h
  have h1 := List.append_cancel_left h
  have hlen : p.length = q.length := by
    have := congrArg List.length h1
    simp only [List.length_append, serialize_pk_length,
      serialize_cell_idx, scalarBytes_length] at this
    omega
  have hblocks := List.append_inj h1
    (by rw [serialize_pk_length, serialize_pk_length, hlen])
  have hpq : p = q := serialize_pk_inj hp hq hlen hblocks.1
  have hij : i = j := by
    have := scalarBytes_inj (a := (i : Int)) (b := (j : Int))
      (by constructor <;> omega) (by constructor <;> omega) hblocks.2
    omega
  exact ⟨hpq, hij⟩

theorem filter_key_eq_nil {m : List (Row × Option Row)} {k : Row}
    (h : ∀ e ∈ m, e.1 ≠ k) :
    m.filter (fun e => decide (e.1 = k)) = [] := by
  rw [List.filter_eq_nil_iff]
  intro e he
  simp [h e he]

theorem map_replace_of_not_mem {m : List (Row × Option Row)} {k : Row}
    {v : Option Row} (h : ∀ e ∈ m, e.1 ≠ k) :
    m.map (fun e => if e.1 = k then (k, v) else e) = m := by
  rw [show m.map (fun e => if e.1 = k then (k, v) else e) = m.map id from
    List.map_congr_left (fun e he => by rw [if_neg (h e he)]; rfl)]
  exact List.map_id m

theorem memInsert_filter_key {k : Row} {v : Option Row} :
    ∀ {m : List (Row × Option Row)}, (m.map Prod.fst).Nodup →
      (memInsert m k v).filter (fun e => decide (e.1 = k)) = [(k, v)] := by
  intro m
  induction m with
  | nil =>
    intro _
    simp [memInsert]
  | cons a rest ih =>
    intro hnd
    rw [List.map_cons, List.nodup_cons] at hnd
    obtain ⟨ha, hrestnd⟩ := hnd
    by_cases hak : a.1 = k
    · have hnok : ∀ e ∈ rest, e.1 ≠ k := by
        intro e he hek
        exact ha (hak ▸ hek ▸ List.mem_map_of_mem Prod.fst he)
      unfold memInsert
      rw [if_pos (by simp [List.any_cons, hak])]
      rw [List.map_cons, if_pos hak, map_replace_of_not_mem hnok]
      rw [List.filter_cons_of_pos (by simp)]
      rw [filter_key_eq_nil hnok]
    · by_cases hmem : rest.any (fun e => decide (e.1 = k)) = true
      · unfold memInsert
        rw [if_pos (by simp only [List.any_cons, hmem, Bool.or_true])]
        rw [List.map_cons, if_neg hak]
        rw [List.filter_cons_of_neg (by simp [hak])]
        have hins : memInsert rest k v =
            rest.map (fun e => if e.1 = k then (k, v) else e) := by
          unfold memInsert
          rw [if_pos hmem]
        rw [← hins]
        exact ih hrestnd
      · have hnall : ∀ e ∈ a :: rest, e.1 ≠ k := by
          intro e he hek
          rcases List.mem_cons.mp he with h1 | h1
          · exact hak (h1 ▸ hek)
          · exact hmem (List.any_eq_true.mpr ⟨e, h1, by simp [hek]⟩)
        unfold memInsert
        rw [if_neg (by
          intro hany
          obtain ⟨e, he, hpe⟩ := List.any_eq_true.mp hany
          exact hnall e he (by simpa using hpe))]
        rw [List.filter_append, filter_key_eq_nil hnall]
        simp

theorem mem_memInsert {m : List (Row × Option Row)} {k : Row} {v : Option Row}
    {e : Row × Option Row} (he : e ∈ memInsert m k v) :
    e ∈ m ∨ e = (k, v) := by
  unfold memInsert at he
  split at he
  · obtain ⟨e', he', heq⟩ := List.mem_map.mp he
    by_cases hek : e'.1 = k
    · rw [if_pos hek] at heq
      exact Or.inr heq.symm
    · rw [if_neg hek] at heq
      exact Or.inl (heq ▸ he')
  · rcases List.mem_append.mp he with h1 | h1
    · exact Or.inl h1
    · exact Or.inr (by simpa using h1)

theorem memInsert_keys_of_mem {m : List (Row × Option Row)} {k : Row}
    {v : Option Row} (h : k ∈ m.map Prod.fst) :
    (memInsert m k v).map Prod.fst = m.map Prod.fst := by
  unfold memInsert
  rw [if_pos]
  · rw [List.map_map]
    refine List.map_congr_left ?_
    intro e _
    by_cases hek : e.1 = k
    · simp [hek]
    · simp [hek]
  · obtain ⟨e, he, hek⟩ := List.mem_map.mp h
    exact List.any_eq_true.mpr ⟨e, he, by simp [hek]⟩

theorem memInsert_nodup {m : List (Row × Option Row)} {k : Row} {v : Option Row}
    (hnd : (m.map Prod.fst).Nodup) :
    ((memInsert m k v).map Prod.fst).Nodup := by
  by_cases h : k ∈ m.map Prod.fst
  · rw [memInsert_keys_of_mem h]
    exact hnd
  · have hnone : ∀ e ∈ m, e.1 ≠ k := by
      intro e he hek
      exact h (hek ▸ List.mem_map_of_mem Prod.fst he)
    unfold memInsert
    rw [if_neg (by
      intro hany
      obtain ⟨e, he, hpe⟩ := List.any_eq_true.mp hany
      exact hnone e he (by simpa using hpe))]
    rw [List.map_append]
    rw [List.nodup_append]
    refine ⟨hnd, by simp, ?_⟩
    intro x hx hx2
    simp only [List.map_cons, List.map_nil, List.mem_singleton] at hx2
    exact h (hx2 ▸ hx)

theorem storeErase_of_not_mem {st : MemoryStateStore} {k : List Nat}
    (h : ∀ e ∈ st, e.1 ≠ k) : storeErase st k = st := by
  rw [storeErase, List.filter_eq_self]
  intro e he
  simpa using h e he

theorem storeInsert_of_not_mem {st : MemoryStateStore} {k v : List Nat}
    (h : ∀ e ∈ st, e.1 ≠ k) : storeInsert st k v = st ++ [(k, v)] := by
  rw [storeInsert, if_neg]
  intro hany
  obtain ⟨e, he, hp⟩ := List.any_eq_true.mp hany
  exact h e he (by simpa using hp)

theorem applyBatch_length :
    ∀ (batch : List (List Nat × Option (List Nat))) (st : MemoryStateStore),
      (st.map Prod.fst).Nodup → (batch.map Prod.fst).Nodup →
      (∀ x ∈ batch.map Prod.fst, x ∉ st.map Prod.fst) →
      (applyBatch st batch).length
        = st.length + batch.countP (fun e => e.2.isSome) := by
  intro batch
  induction batch with
  | nil =>
    intro st _ _ _
    simp [applyBatch]
  | cons b rest ih =>
    intro st hstnd hbnd hdisj
    rw [List.map_cons, List.nodup_cons] at hbnd
    obtain ⟨hb1, hbrest⟩ := hbnd
    have hbst : ∀ e ∈ st, e.1 ≠ b.1 := by
      intro e he hek
      exact hdisj b.1 (by simp) (hek ▸ List.mem_map_of_mem Prod.fst he)
    unfold applyBatch
    rw [List.foldl_cons]
    cases hb : b.2 with
    | none =>
      simp only [hb]
      rw [storeErase_of_not_mem hbst]
      have hrec := ih st hstnd hbrest
        (fun x hx => hdisj x (by simp [hx]))
      unfold applyBatch at hrec
      rw [hrec, List.countP_cons]
      simp [hb]
    | some w =>
      simp only [hb]
      rw [storeInsert_of_not_mem hbst]
      have harg1 : ((st ++ [(b.1, w)]).map Prod.fst).Nodup := by
        rw [List.map_append, List.nodup_append]
        refine ⟨hstnd, by simp, ?_⟩
        intro x hx hx2
        simp only [List.map_cons, List.map_nil, List.mem_singleton] at hx2
        exact hdisj b.1 (by simp) (hx2 ▸ hx)
      have harg2 : ∀ x ∈ rest.map Prod.fst,
          x ∉ (st ++ [(b.1, w)]).map Prod.fst := by
        intro x hx
        rw [List.map_append, List.mem_append]
        rintro (h1 | h1)
        · exact hdisj x (by simp [hx]) h1
        · simp only [List.map_cons, List.map_nil, List.mem_singleton] at h1
          exact hb1 (h1 ▸ hx)
      have hrec := ih (st ++ [(b.1, w)]) harg1 hbrest harg2
      unfold applyBatch at hrec
      rw [hrec, List.countP_cons]
      simp only [hb, Option.isSome_some, if_pos, List.length_append,
        List.length_cons, List.length_nil]
      omega

theorem batchOf_cons (s : ManagedMViewState) (e : Row × Option Row)
    (m : List (Row × Option Row)) :
    batchOf s (e :: m) = rowCells s e.1 e.2 ++ batchOf s m := rfl

theorem mem_rowCells {s : ManagedMViewState} {pk : Row} {cells : Option Row}
    {e : List Nat × Option (List Nat)} (he : e ∈ rowCells s pk cells) :
    ∃ i < s.schemaLen,
      e = (cellKey s pk i, cells.map (fun row => serialize_cell (row.getD i 0))) := by
  obtain ⟨i, hi, heq⟩ := List.mem_map.mp he
  exact ⟨i, List.mem_range.mp hi, heq.symm⟩

theorem rowCells_length (s : ManagedMViewState) (pk : Row) (cells : Option Row) :
    (rowCells s pk cells).length = s.schemaLen := by
  simp [rowCells]

theorem rowCells_keys (s : ManagedMViewState) (pk : Row) (cells : Option Row) :
    (rowCells s pk cells).map Prod.fst
      = (List.range s.schemaLen).map (cellKey s pk) := by
  simp [rowCells, List.map_map, Function.comp]

theorem rowCells_keys_nodup {s : ManagedMViewState} {pk : Row}
    (hpk : wfPk pk) (hN : s.schemaLen ≤ 2 ^ 31) (cells : Option Row) :
    ((rowCells s pk cells).map Prod.fst).Nodup := by
  rw [rowCells_keys]
  refine List.Nodup.map_on ?_ (List.nodup_range _)
  intro x hx y hy hxy
  exact (cellKey_inj hpk hpk
    (lt_of_lt_of_le (List.mem_range.mp hx) hN)
    (lt_of_lt_of_le (List.mem_range.mp hy) hN) hxy).2

theorem rowCells_keys_disjoint {s : ManagedMViewState} {pk qk : Row}
    (hpk : wfPk pk) (hqk : wfPk qk) (hN : s.schemaLen ≤ 2 ^ 31)
    (hne : pk ≠ qk) (c1 c2 : Option Row) :
    ((rowCells s pk c1).map Prod.fst).Disjoint
      ((rowCells s qk c2).map Prod.fst) := by
  rw [rowCells_keys, rowCells_keys]
  intro a ha hb
  obtain ⟨i, hi, hia⟩ := List.mem_map.mp ha
  obtain ⟨j, hj, hjb⟩ := List.mem_map.mp hb
  have : cellKey s pk i = cellKey s qk j := by rw [hia, hjb]
  exact hne (cellKey_inj hpk hqk
    (lt_of_lt_of_le (List.mem_range.mp hi) hN)
    (lt_of_lt_of_le (List.mem_range.mp hj) hN) this).1

theorem rowCells_countP_some (s : ManagedMViewState) (pk r : Row) :
    (rowCells s pk (some r)).countP (fun e => e.2.isSome) = s.schemaLen := by
  have hall : ∀ e ∈ rowCells s pk (some r),
      (fun e : List Nat × Option (List Nat) => e.2.isSome) e = true := by
    intro e he
    obtain ⟨i, _, heq⟩ := mem_rowCells he
    rw [heq]
    simp
  rw [List.countP_eq_length.mpr hall, rowCells_length]

theorem rowCells_countP_none (s : ManagedMViewState) (pk : Row) :
    (rowCells s pk none).countP (fun e => e.2.isSome) = 0 := by
  rw [List.countP_eq_zero]
  intro e he
  obtain ⟨i, _, heq⟩ := mem_rowCells he
  rw [heq]
  simp

theorem filter_rowCells_self {s : ManagedMViewState} {k : Row}
    (cells : Option Row) :
    (rowCells s k cells).filter (isCellKeyFor s k) = rowCells s k cells := by
  rw [List.filter_eq_self]
  intro e he
  obtain ⟨i, hi, heq⟩ := mem_rowCells he
  rw [heq]
  unfold isCellKeyFor
  exact List.any_eq_true.mpr ⟨i, List.mem_range.mpr hi, by simp⟩

theorem filter_rowCells_nil {s : ManagedMViewState} {k pk : Row}
    (hk : wfPk k) (hpk : wfPk pk) (hN : s.schemaLen ≤ 2 ^ 31) (hne : pk ≠ k)
    (cells : Option Row) :
    (rowCells s pk cells).filter (isCellKeyFor s k) = [] := by
  rw [List.filter_eq_nil_iff]
  intro e he
  obtain ⟨i, hi, heq⟩ := mem_rowCells he
  rw [heq]
  unfold isCellKeyFor
  intro hcontra
  obtain ⟨j, hj, hp⟩ := List.any_eq_true.mp hcontra
  have hkey : cellKey s pk i = cellKey s k j := by simpa using hp
  exact hne (cellKey_inj hpk hk (lt_of_lt_of_le hi hN)
    (lt_of_lt_of_le (List.mem_range.mp hj) hN) hkey).1

theorem batchOf_filter {s : ManagedMViewState} {k : Row} (hk : wfPk k)
    (hN : s.schemaLen ≤ 2 ^ 31) :
    ∀ {m : List (Row × Option Row)}, (∀ e ∈ m, wfPk e.1) →
      (batchOf s m).filter (isCellKeyFor s k)
        = batchOf s (m.filter (fun e => decide (e.1 = k))) := by
  intro m
  induction m with
  | nil =>
    intro _
    rfl
  | cons a rest ih =>
    intro hm
    rw [batchOf_cons, List.filter_append]
    by_cases hak : a.1 = k
    · rw [List.filter_cons_of_pos (by simp [hak])]
      rw [batchOf_cons]
      rw [ih (fun e he => hm e (by simp [he]))]
      congr 1
      rw [hak, filter_rowCells_self]
    · rw [List.filter_cons_of_neg (by simp [hak])]
      rw [filter_rowCells_nil hk (hm a (by simp)) hN hak]
      rw [List.nil_append]
      exact ih (fun e he => hm e (by simp [he]))

/-- C2: after `put(k, A)` then `delete(k)` within one checkpoint window the
memtable holds exactly one entry for `k` and it maps to `None`; the flush
batch therefore contains, among the cell keys of `k`, exactly one deletion
cell (value `None`) per schema column and no put cells for `k`. -/
theorem mview_c2 (s : ManagedMViewState) (k A : Row)
    (hnd : (s.memtable.map Prod.fst).Nodup)
    (hk : wfPk k)
    (hm : ∀ e ∈ s.memtable, wfPk e.1)
    (hN : s.schemaLen ≤ 2 ^ 31) :
    ((ManagedMViewState.delete (ManagedMViewState.put s k A) k).memtable.countP
        (fun e => decide (e.1 = k)) = 1)
    ∧ (∀ e ∈ (ManagedMViewState.delete (ManagedMViewState.put s k A) k).memtable,
        e.1 = k → e.2 = none)
    ∧ ((buildBatch (ManagedMViewState.delete (ManagedMViewState.put s k A) k)).filter
          (isCellKeyFor (ManagedMViewState.delete (ManagedMViewState.put s k A) k) k)
        = (List.range s.schemaLen).map
            (fun i => (cellKey s k i, (none : Option (List Nat))))) := by
  have hnd1 : ((memInsert s.memtable k (some A)).map Prod.fst).Nodup :=
    memInsert_nodup hnd
  have hfil : (ManagedMViewState.delete (ManagedMViewState.put s k A) k).memtable.filter
      (fun e => decide (e.1 = k)) = [(k, none)] :=
    memInsert_filter_key hnd1
  have hm1 : ∀ e ∈ (ManagedMViewState.delete (ManagedMViewState.put s k A) k).memtable,
      wfPk e.1 := by
    intro e he
    rcases mem_memInsert he with h1 | h1
    · rcases mem_memInsert h1 with h2 | h2
      · exact hm e h2
      · rw [h2]
        exact hk
    · rw [h1]
      exact hk
  refine ⟨?_, ?_, ?_⟩
  · rw [List.countP_eq_length_filter, hfil]
    rfl
  · intro e he hek
    have : e ∈ (ManagedMViewState.delete (ManagedMViewState.put s k A) k).memtable.filter
        (fun x => decide (x.1 = k)) :=
      List.mem_filter.mpr ⟨he, by simp [hek]⟩
    rw [hfil] at this
    rw [List.mem_singleton.mp this]
  · rw [show buildBatch (ManagedMViewState.delete (ManagedMViewState.put s k A) k)
        = batchOf (ManagedMViewState.delete (ManagedMViewState.put s k A) k)
            (ManagedMViewState.delete (ManagedMViewState.put s k A) k).memtable
      from rfl]
    rw [batchOf_filter
        (s := ManagedMViewState.delete (ManagedMViewState.put s k A) k)
        hk hN hm1, hfil]
    simp only [batchOf, rowCells, List.foldr_cons, List.foldr_nil,
      List.append_nil, Option.map_none']
    rfl

theorem mview_c2_witness :
    ((ManagedMViewState.delete
        (ManagedMViewState.put (ManagedMViewState.new [5] 2 [0]) [1] [1, 2])
        [1]).memtable.countP (fun e => decide (e.1 = [1])) = 1)
    ∧ (∀ e ∈ (ManagedMViewState.delete
        (ManagedMViewState.put (ManagedMViewState.new [5] 2 [0]) [1] [1, 2])
        [1]).memtable, e.1 = [1] → e.2 = none)
    ∧ ((buildBatch (ManagedMViewState.delete
          (ManagedMViewState.put (ManagedMViewState.new [5] 2 [0]) [1] [1, 2])
          [1])).filter
          (isCellKeyFor (ManagedMViewState.delete
            (ManagedMViewState.put (ManagedMViewState.new [5] 2 [0]) [1] [1, 2])
            [1]) [1])
        = (List.range (ManagedMViewState.new [5] 2 [0]).schemaLen).map
            (fun i => (cellKey (ManagedMViewState.new [5] 2 [0]) [1] i,
              (none : Option (List Nat))))) :=
  mview_c2 (ManagedMViewState.new [5] 2 [0]) [1] [1, 2]
    (by decide) (by decide) (by decide) (by decide)

/-- C9: flush always leaves the memtable empty — also when the underlying
batch ingest fails; the failure is returned to the caller as an
`InternalError` wrapping the store's message, with the store unchanged, and
the drained mutations are not restored. -/
theorem mview_c9 (s : ManagedMViewState) (store : MemoryStateStore)
    (err : Option String) :
    (( ManagedMViewState.flush s store err).1.memtable = [])
    ∧ (∀ msg, err = some msg →
        ( ManagedMViewState.flush s store err).2.2
            = Except.error ("InternalError: " ++ msg)
        ∧ ( ManagedMViewState.flush s store err).2.1 = store)
    ∧ (err = none →
        ( ManagedMViewState.flush s store err).2.2 = Except.ok ()
        ∧ ( ManagedMViewState.flush s store err).2.1
            = applyBatch store (buildBatch s)) := by
  refine ⟨?_, ?_, ?_⟩
  · cases err <;> simp [ManagedMViewState.flush, ingest_batch]
  · intro msg hmsg
    subst hmsg
    simp [ManagedMViewState.flush, ingest_batch]
  · intro hnone
    subst hnone
    simp [ManagedMViewState.flush, ingest_batch]

theorem mview_c9_witness :
    (( ManagedMViewState.flush (ManagedMViewState.delete
        (ManagedMViewState.new [5] 2 [0]) [1]) [] (some "disk full")).1.memtable = [])
    ∧ (( ManagedMViewState.flush (ManagedMViewState.delete
        (ManagedMViewState.new [5] 2 [0]) [1]) [] (some "disk full")).2.2
          = Except.error ("InternalError: " ++ "disk full")
        ∧ ( ManagedMViewState.flush (ManagedMViewState.delete
            (ManagedMViewState.new [5] 2 [0]) [1]) [] (some "disk full")).2.1 = [])
    ∧ (( ManagedMViewState.flush (ManagedMViewState.new [5] 2 [0]) [] none).2.2
          = Except.ok ()
        ∧ ( ManagedMViewState.flush (ManagedMViewState.new [5] 2 [0]) [] none).2.1
            = applyBatch []
                (buildBatch (ManagedMViewState.new [5] 2 [0]))) :=
  ⟨(mview_c9 (ManagedMViewState.delete (ManagedMViewState.new [5] 2 [0]) [1])
      [] (some "disk full")).1,
   (mview_c9 (ManagedMViewState.delete (ManagedMViewState.new [5] 2 [0]) [1])
      [] (some "disk full")).2.1 "disk full" rfl,
   (mview_c9 (ManagedMViewState.new [5] 2 [0]) [] none).2.2 rfl⟩

/-- C6: over a schema with `N` columns, putting 3 distinct (well-formed)
primary keys into a fresh state and deleting one of them before flushing
into an empty store leaves exactly `2 * N` live cells; in the concrete
2-column scenario (put pk=1,2,3, delete pk=2, flush) the store holds 4
cells, and a further delete of pk=3 followed by a flush leaves 2 cells. -/
theorem mview_c6 :
    (∀ (pfx : List Nat) (N : Nat) (pkCols : List Nat) (pk1 pk2 pk3 r1 r2 r3 : Row),
      wfPk pk1 → wfPk pk2 → wfPk pk3 → N ≤ 2 ^ 31 →
      pk1 ≠ pk2 → pk1 ≠ pk3 → pk2 ≠ pk3 →
      ((ManagedMViewState.flush
          (ManagedMViewState.delete
            (ManagedMViewState.put
              (ManagedMViewState.put
                (ManagedMViewState.put (ManagedMViewState.new pfx N pkCols) pk1 r1)
                pk2 r2)
              pk3 r3)
            pk2)
          [] none).2.1).length = 2 * N)
    ∧ ((ManagedMViewState.flush
          (ManagedMViewState.delete
            (ManagedMViewState.put
              (ManagedMViewState.put
                (ManagedMViewState.put (ManagedMViewState.new [7] 2 [0])
                  [1] [1, 11])
                [2] [2, 22])
              [3] [3, 33])
            [2])
          [] none).2.1).length = 4
    ∧ ((ManagedMViewState.flush
          (ManagedMViewState.delete
            (ManagedMViewState.flush
              (ManagedMViewState.delete
                (ManagedMViewState.put
                  (ManagedMViewState.put
                    (ManagedMViewState.put (ManagedMViewState.new [7] 2 [0])
                      [1] [1, 11])
                    [2] [2, 22])
                  [3] [3, 33])
                [2])
              [] none).1
            [3])
          (ManagedMViewState.flush
            (ManagedMViewState.delete
              (ManagedMViewState.put
                (ManagedMViewState.put
                  (ManagedMViewState.put (ManagedMViewState.new [7] 2 [0])
                    [1] [1, 11])
                  [2] [2, 22])
                [3] [3, 33])
              [2])
            [] none).2.1
          none).2.1).length = 2 := by
  refine ⟨?_, by decide, by decide⟩
  intro pfx N pkCols pk1 pk2 pk3 r1 r2 r3 h1 h2 h3 hN h12 h13 h23
  have hm : (ManagedMViewState.delete
      (ManagedMViewState.put
        (ManagedMViewState.put
          (ManagedMViewState.put (ManagedMViewState.new pfx N pkCols) pk1 r1)
          pk2 r2)
        pk3 r3)
      pk2).memtable = [(pk1, some r1), (pk2, none), (pk3, some r3)] := by
    simp [ManagedMViewState.new, ManagedMViewState.put, ManagedMViewState.delete,
      memInsert, h12, h13, h23, Ne.symm h12, Ne.symm h13, Ne.symm h23]
  set s1 := ManagedMViewState.delete
      (ManagedMViewState.put
        (ManagedMViewState.put
          (ManagedMViewState.put (ManagedMViewState.new pfx N pkCols) pk1 r1)
          pk2 r2)
        pk3 r3)
      pk2 with hs1
  have hN1 : s1.schemaLen = N := rfl
  have hflush : (ManagedMViewState.flush s1 [] none).2.1
      = applyBatch [] (buildBatch s1) := by
    simp [ManagedMViewState.flush, ingest_batch]
  rw [hflush]
  have hbatch : buildBatch s1
      = rowCells s1 pk1 (some r1)
        ++ (rowCells s1 pk2 none ++ (rowCells s1 pk3 (some r3) ++ [])) := by
    rw [buildBatch, hm]
    rfl
  have hkeysnd : ((buildBatch s1).map Prod.fst).Nodup := by
    rw [hbatch]
    simp only [List.map_append, List.append_nil, List.map_nil]
    rw [List.nodup_append, List.nodup_append]
    have hNle : s1.schemaLen ≤ 2 ^ 31 := by rw [hN1]; exact hN
    refine ⟨rowCells_keys_nodup h1 hNle _,
      ⟨rowCells_keys_nodup h2 hNle _, rowCells_keys_nodup h3 hNle _,
        rowCells_keys_disjoint h2 h3 hNle h23 _ _⟩, ?_⟩
    intro a ha hb
    rw [List.mem_append] at hb
    rcases hb with hb | hb
    · exact rowCells_keys_disjoint h1 h2 hNle h12 _ _ ha hb
    · exact rowCells_keys_disjoint h1 h3 hNle h13 _ _ ha hb
  have hlen := applyBatch_length (buildBatch s1) [] (by simp) hkeysnd
    (by intro x _ hx; simp at hx)
  rw [hlen, hbatch]
  rw [List.countP_append, List.countP_append, List.countP_append]
  rw [rowCells_countP_some, rowCells_countP_none, rowCells_countP_some]
  simp [hN1]
  omega

theorem mview_c6_witness :
    ((ManagedMViewState.flush
        (ManagedMViewState.delete
          (ManagedMViewState.put
            (ManagedMViewState.put
              (ManagedMViewState.put (ManagedMViewState.new [7] 2 [0])
                [1] [1, 11])
              [2] [2, 22])
            [3] [3, 33])
          [2])
        [] none).2.1).length = 2 * 2 :=
  mview_c6.1 [7] 2 [0] [1] [2] [3] [1, 11] [2, 22] [3, 33]
    (by decide) (by decide) (by decide) (by decide)
    (by decide) (by decide) (by decide)

/-! ## Managed aggregation value-state lemmas and claims C3, C10 -/

theorem storeGet_append_of_no_key {st : MemoryStateStore} {k : List Nat}
    (h : ∀ e ∈ st, e.1 ≠ k) (tail : MemoryStateStore) :
    storeGet (st ++ tail) k = storeGet tail k := by
  induction st with
  | nil => rfl
  | cons a rest ih =>
    rw [List.cons_append]
    unfold storeGet
    rw [List.find?_cons_of_neg _ (by simp [h a (by simp)])]
    exact ih (fun e he => h e (by simp [he]))

theorem find_map_replace {st : MemoryStateStore} {k v : List Nat}
    (hany : st.any (fun e => decide (e.1 = k)) = true) :
    (st.map (fun e => if e.1 = k then (k, v) else e)).find?
      (fun e => decide (e.1 = k)) = some (k, v) := by
  induction st with
  | nil => simp at hany
  | cons a rest ih =>
    rw [List.map_cons]
    by_cases hak : a.1 = k
    · rw [if_pos hak]
      rw [List.find?_cons_of_pos _ (by simp)]
    · rw [if_neg hak]
      rw [List.find?_cons_of_neg _ (by simp [hak])]
      refine ih ?_
      rw [List.any_cons] at hany
      simpa [hak] using hany

theorem storeGet_insert (st : MemoryStateStore) (k v : List Nat) :
    storeGet (storeInsert st k v) k = some v := by
  by_cases hany : st.any (fun e => decide (e.1 = k)) = true
  · rw [storeInsert, if_pos hany]
    unfold storeGet
    rw [find_map_replace hany]
    rfl
  · have hno : ∀ e ∈ st, e.1 ≠ k := by
      intro e he hek
      exact hany (List.any_eq_true.mpr ⟨e, he, by simp [hek]⟩)
    rw [storeInsert_of_not_mem hno, storeGet_append_of_no_key hno]
    unfold storeGet
    rw [List.find?_cons_of_pos _ (by simp)]
    rfl

theorem deserialize_serialize_some (v : Int) (h1 : -(2 ^ 63) ≤ v)
    (h2 : v < 2 ^ 63) :
    deserializeDatum (serializeDatum (some v)) = .ok (some v) := by
  have hser : serializeDatum (some v) = 1 :: beBytes 8 (v + 2 ^ 63).toNat := rfl
  rw [hser]
  simp only [deserializeDatum]
  rw [if_true, if_pos (beBytes_length 8 _)]
  rw [decodeBytes_beBytes]
  have hb : (256 : Nat) ^ 8 = 2 ^ 64 := by norm_num
  have hlt : (v + 2 ^ 63).toNat < 256 ^ 8 := by omega
  rw [Nat.mod_eq_of_lt hlt]
  have hcast : (((v + 2 ^ 63).toNat : Nat) : Int) = v + 2 ^ 63 :=
    Int.toNat_of_nonneg (by omega)
  rw [hcast]
  norm_num

theorem new_eq_of_get (ks : Keyspace) (raw : List Nat)
    (hget : storeGet ks.store ks.pfx = some raw) :
    ManagedValueState.new ks
      = match deserializeDatum raw with
        | .ok d => .ok ⟨create_streaming_agg_state (some d), ks, false⟩
        | .error e => .error e := by
  unfold ManagedValueState.new
  rw [hget]

/-- C3: a freshly constructed `ManagedValueState` is not dirty; after
`apply_batch` it is dirty; after a successful `flush` it is not dirty; and
flushing a count state into an empty write batch, ingesting that batch into
the store and re-constructing the state over the same keyspace yields the
same `get_output` (round-trip through persistence). -/
theorem agg_c3 :
    (∀ (ks : Keyspace) (s : ManagedValueState),
      ManagedValueState.new ks = .ok s → s.is_dirty = false)
    ∧ (∀ (s : ManagedValueState) (ops : List Op) (vis : Option (List Bool))
        (col : List Datum),
      (ManagedValueState.apply_batch s ops vis col).1.is_dirty = true)
    ∧ (∀ (s s' : ManagedValueState)
        (wb wb' : List (List Nat × Option (List Nat))),
      ManagedValueState.flush s wb = (.ok (), s', wb') → s'.is_dirty = false)
    ∧ (∀ (store : MemoryStateStore) (pfxK : List Nat) (v : Int) (d : Bool),
      -(2 ^ 63) ≤ v → v < 2 ^ 63 →
      ∃ s2 : ManagedValueState,
        ManagedValueState.new
            ⟨applyBatch store
              (ManagedValueState.flush ⟨.count v, ⟨store, pfxK⟩, d⟩ []).2.2,
             pfxK⟩
          = .ok s2
        ∧ StreamingAggState.get_output s2.state
            = StreamingAggState.get_output (StreamingAggState.count v)) := by
  refine ⟨?_, ?_, ?_, ?_⟩
  · intro ks s h
    unfold ManagedValueState.new at h
    split at h
    · split at h
      · cases h
        rfl
      · cases h
    · cases h
      rfl
  · intro s ops vis col
    cases hs : s.state <;>
      simp [ManagedValueState.apply_batch, StreamingAggState.applyBatch, hs]
  · intro s s' wb wb' h
    unfold ManagedValueState.flush at h
    split at h
    · cases h
    · rw [show serialize_datum_into _ = .ok (serializeDatum _) from rfl] at h
      rw [Prod.mk.injEq, Prod.mk.injEq] at h
      rw [← h.2.1]
  · intro store pfxK v d hv1 hv2
    have hfl : (ManagedValueState.flush ⟨.count v, ⟨store, pfxK⟩, d⟩ []).2.2
        = [(pfxK, some (serializeDatum (some v)))] := rfl
    rw [hfl]
    have happ : applyBatch store [(pfxK, some (serializeDatum (some v)))]
        = storeInsert store pfxK (serializeDatum (some v)) := rfl
    rw [happ]
    refine ⟨⟨.count v, ⟨storeInsert store pfxK (serializeDatum (some v)), pfxK⟩,
      false⟩, ?_, rfl⟩
    rw [new_eq_of_get
      (⟨storeInsert store pfxK (serializeDatum (some v)), pfxK⟩ : Keyspace)
      (serializeDatum (some v))
      (storeGet_insert store pfxK (serializeDatum (some v)))]
    rw [deserialize_serialize_some v hv1 hv2]
    rfl

theorem agg_c3_witness :
    (ManagedValueState.new ⟨[], [3]⟩
        = .ok ⟨create_streaming_agg_state none, ⟨[], [3]⟩, false⟩
      → (⟨create_streaming_agg_state none, ⟨[], [3]⟩, false⟩ :
          ManagedValueState).is_dirty = false)
    ∧ ((ManagedValueState.apply_batch
        ⟨.count 0, ⟨[], [3]⟩, false⟩ [.insert] none [some 1]).1.is_dirty = true)
    ∧ (∃ s2 : ManagedValueState,
        ManagedValueState.new
            ⟨applyBatch []
              (ManagedValueState.flush ⟨.count 5, ⟨[], [3]⟩, true⟩ []).2.2,
             [3]⟩
          = .ok s2
        ∧ StreamingAggState.get_output s2.state
            = StreamingAggState.get_output (StreamingAggState.count 5)) :=
  ⟨fun h => agg_c3.1 ⟨[], [3]⟩ _ h,
   agg_c3.2.1 ⟨.count 0, ⟨[], [3]⟩, false⟩ [.insert] none [some 1],
   agg_c3.2.2.2 [] [3] 5 true (by decide) (by decide)⟩

/-- C10: `ManagedValueState::flush` is atomic on error — when obtaining the
output (or serializing it) fails, flush returns that error with the write
batch and the state (including `is_dirty`) unchanged; on success it clears
`is_dirty` and appends exactly one `(key, Some(value))` entry. -/
theorem agg_c10 :
    (∀ (s : ManagedValueState) (wb : List (List Nat × Option (List Nat)))
        (e : String),
      (StreamingAggState.get_output s.state = .error e
        ∨ (∃ v, StreamingAggState.get_output s.state = .ok v
            ∧ serialize_datum_into v = .error e)) →
      ManagedValueState.flush s wb = (.error e, s, wb))
    ∧ (∀ (s : ManagedValueState) (wb : List (List Nat × Option (List Nat)))
        (v : Datum),
      StreamingAggState.get_output s.state = .ok v →
      ManagedValueState.flush s wb
        = (.ok (), { s with is_dirty := false },
            wb ++ [(s.keyspace.pfx, some (serializeDatum v))])) := by
  constructor
  · intro s wb e h
    rcases h with h | ⟨v, hv, hser⟩
    · unfold ManagedValueState.flush
      rw [h]
    · cases hser
  · intro s wb v h
    unfold ManagedValueState.flush
    rw [h]
    rfl

theorem agg_c10_witness :
    (ManagedValueState.flush ⟨.extended (.error "agg failed"), ⟨[], [1]⟩, true⟩ []
        = (.error "agg failed",
            ⟨.extended (.error "agg failed"), ⟨[], [1]⟩, true⟩, []))
    ∧ (ManagedValueState.flush ⟨.count 5, ⟨[], [2]⟩, true⟩ []
        = (.ok (),
            { (⟨.count 5, ⟨[], [2]⟩, true⟩ : ManagedValueState) with
                is_dirty := false },
            [] ++ [((⟨.count 5, ⟨[], [2]⟩, true⟩ : ManagedValueState).keyspace.pfx,
              some (serializeDatum (some 5)))])) :=
  ⟨agg_c10.1 ⟨.extended (.error "agg failed"), ⟨[], [1]⟩, true⟩ [] "agg failed"
      (Or.inl rfl),
   agg_c10.2 ⟨.count 5, ⟨[], [2]⟩, true⟩ [] (some 5) rfl⟩

end RW
